import Mathlib

/-!
Shallow embedding of the ESP32 hybrid entropy generator sketch
(`sketch_gpsc.ino` and its unnamed variants): von Neumann corrector,
bit accumulator, SHA-256 conditioning stage with hex serial output,
and the driver loop.  The SHA-256 primitive itself is an external
library (`mbedtls`), so it is carried as an abstract parameter
`sha256 : List Nat → List Nat`; everything else is translated from the
source.  Bytes are `Nat` values kept below 256 (uint8_t arithmetic is
made explicit with `% 256` where the source can overflow).
-/

namespace Gpsc

/-- `BUFFER_BITS` from the sketch: 256 bits, i.e. 32 buffer bytes. -/
def BUFFER_BITS : Nat := 256

/-- One uppercase hexadecimal digit, as printed by the Arduino core for
values 0–15: '0'–'9' then 'A'–'F'. -/
def hexDigit (n : Nat) : Char :=
  if n < 10 then Char.ofNat (48 + n) else Char.ofNat (55 + n)

/-- Minimal-length uppercase hexadecimal rendering accumulator:
`Serial.print(value, HEX)` prints the digits of `value` in base 16 with
no leading zeros (a single '0' for the value 0).  Structural fuel makes
the recursion kernel-reducible; any `fuel ≥ n` gives the exact digits. -/
def natToHexAux : Nat → Nat → List Char → List Char
  | 0, n, acc => hexDigit n :: acc
  | fuel + 1, n, acc =>
      if n < 16 then hexDigit n :: acc
      else natToHexAux fuel (n / 16) (hexDigit (n % 16) :: acc)

/-- The characters `Serial.print(d, HEX)` sends for a value `d`. -/
def natToHexChars (d : Nat) : List Char := natToHexAux d d []

/-- Characters emitted for one digest byte by `hashAndOutput` in
`sketch_gpsc.ino`: a manual leading `"0"` when `digest[i] < 0x10`,
then `Serial.print(digest[i], HEX)`. -/
def sketchByteChars (d : Nat) : List Char :=
  (if d < 16 then ['0'] else []) ++ natToHexChars d

/-- Characters `sprintf("%02X", d)` writes in the unnamed variant
(`src/unnamed/part_000`): the minimal uppercase hex digits of `d`,
zero-padded on the left to a field width of two. -/
def sprintfByteChars (d : Nat) : List Char :=
  (if (natToHexChars d).length < 2 then ['0'] else []) ++ natToHexChars d

/-- Modelled from the spec: the output sink's `println` terminates each
emitted value with a line break ("terminated by a line break"); the
`Serial` transport itself is an external collaborator outside `src/`. -/
def lineBreak : List Char := ['\n']

/-- The full serial line produced for a 32-byte digest by the per-byte
printing loop of `hashAndOutput` in `sketch_gpsc.ino`, followed by
`Serial.println()`. -/
def sketchHexLine (digest : List Nat) : String :=
  String.mk ((digest.map sketchByteChars).flatten ++ lineBreak)

/-- The full serial line produced by the unnamed variant
(`src/unnamed/part_000`): a 64-character buffer built with
`sprintf("%02X", ...)` per byte, sent with one `Serial.println`. -/
def variantHexLine (digest : List Nat) : String :=
  String.mk ((digest.map sprintfByteChars).flatten ++ lineBreak)

/-- The von Neumann corrector's persistent globals: `lastBit` and
`hasLastBit`. -/
structure VnState where
  lastBit : Bool
  hasLastBit : Bool
deriving DecidableEq

/-- `vonNeumannCorrector(currentBit, &outputBit)` from the sketch: the
returned `Option Bool` is `some outputBit` when the C function returns
`true`, paired with the updated globals. -/
def vonNeumannCorrector (currentBit : Bool) (s : VnState) :
    Option Bool × VnState :=
  if !s.hasLastBit then
    (none, ⟨currentBit, true⟩)
  else if s.lastBit != currentBit then
    (some currentBit, ⟨s.lastBit, false⟩)
  else
    (none, ⟨s.lastBit, false⟩)

/-- `packBitIntoBuffer(bit)`: sets bit `collectedBits % 8` of byte
`collectedBits / 8` when `bit` is true (uint8_t truncation explicit),
then increments `collectedBits`.  Returns the updated buffer and
counter. -/
def packBitIntoBuffer (bit : Bool) (buf : List Nat) (collectedBits : Nat) :
    List Nat × Nat :=
  let byteIndex := collectedBits / 8
  let bitIndex := collectedBits % 8
  let buf' :=
    if bit then
      buf.set byteIndex ((buf.getD byteIndex 0 ||| (1 <<< bitIndex)) % 256)
    else buf
  (buf', collectedBits + 1)

/-- The accumulator/conditioner globals: `entropyBuffer` (32 bytes) and
`collectedBits`. -/
structure CoreState where
  entropyBuffer : List Nat
  collectedBits : Nat
deriving DecidableEq

/-- Observable actions of `hashAndOutput`, in program order: computing
the digest, printing the hex line over serial, clearing the buffer. -/
inductive Event where
  | digestComputed : List Nat → Event
  | serialPrint : String → Event
  | bufferReset : Event
deriving DecidableEq

/-- Is this event the serial emission? -/
def Event.isSerialPrint : Event → Bool
  | .serialPrint _ => true
  | _ => false

/-- Is this event the buffer/counter reset? -/
def Event.isReset : Event → Bool
  | .bufferReset => true
  | _ => false

/-- `hashAndOutput()` from `sketch_gpsc.ino`: returns early when
`collectedBits < BUFFER_BITS`; otherwise computes the SHA-256 digest of
the buffer, prints it as hex plus a newline, and only then zeroes
`collectedBits` and the buffer.  The returned event list records those
side effects in the order the statements execute. -/
def hashAndOutput (sha256 : List Nat → List Nat) (st : CoreState) :
    CoreState × List Event :=
  if st.collectedBits < BUFFER_BITS then (st, [])
  else
    let digest := sha256 st.entropyBuffer
    (⟨List.replicate 32 0, 0⟩,
     [Event.digestComputed digest,
      Event.serialPrint (sketchHexLine digest),
      Event.bufferReset])

/-- Full driver state: conditioner globals, corrector globals, and the
trace of emission events so far. -/
structure LoopState where
  core : CoreState
  vn : VnState
  events : List Event

/-- The initial global state of the sketch: zero-filled buffer,
`collectedBits = 0`, `lastBit = 0`, `hasLastBit = false`. -/
def initLoopState : LoopState :=
  ⟨⟨List.replicate 32 0, 0⟩, ⟨false, false⟩, []⟩

/-- One iteration of `loop()` for a given raw bit: run the corrector;
when it accepts, pack the corrected bit and immediately call
`hashAndOutput`. -/
def loopStep (sha256 : List Nat → List Nat) (s : LoopState) (rawBit : Bool) :
    LoopState :=
  let r := vonNeumannCorrector rawBit s.vn
  match r.1 with
  | none => ⟨s.core, r.2, s.events⟩
  | some correctedBit =>
      let p := packBitIntoBuffer correctedBit s.core.entropyBuffer
        s.core.collectedBits
      let h := hashAndOutput sha256 ⟨p.1, p.2⟩
      ⟨h.1, r.2, s.events ++ h.2⟩

/-- Run the driver loop over a whole sequence of raw bits. -/
def runLoop (sha256 : List Nat → List Nat) (bits : List Bool)
    (s : LoopState) : LoopState :=
  bits.foldl (loopStep sha256) s

/-- Feed a sequence of bits to the corrector alone, collecting the
accepted (debiased) output bits in order. -/
def vnOutputs : List Bool → VnState → List Bool × VnState
  | [], s => ([], s)
  | b :: bs, s =>
      let r := vonNeumannCorrector b s
      let rest := vnOutputs bs r.2
      (match r.1 with
       | some ob => ob :: rest.1
       | none => rest.1, rest.2)

/-- Repeatedly push a list of accepted bits through
`packBitIntoBuffer`, starting from the given buffer and counter. -/
def pushAll (bits : List Bool) (buf : List Nat) (n : Nat) :
    List Nat × Nat :=
  bits.foldl (fun acc b => packBitIntoBuffer b acc.1 acc.2) (buf, n)

/-- Logical bit `i` of the packed buffer: bit `i % 8` of byte `i / 8`,
least-significant-bit first. -/
def bufBit (buf : List Nat) (i : Nat) : Bool :=
  Nat.testBit (buf.getD (i / 8) 0) (i % 8)

/-- The 512-bit strictly alternating raw input `0,1,1,0,0,1,1,0,...`
(pairs `01,10,01,10,...`). -/
def altSeq : List Bool :=
  (List.range 512).map (fun i => i % 4 == 1 || i % 4 == 2)

/-- One period of the alternating raw input: the pair `01` then the
pair `10`. -/
def altBlock : List Bool := [false, true, true, false]

/-- The output encoding as the spec describes it (§6): exactly two
uppercase hexadecimal digits per byte, most-significant nibble first. -/
def specByteChars (d : Nat) : List Char :=
  [hexDigit (d / 16), hexDigit (d % 16)]

/-- The ordering property the spec asserts of `hashAndOutput`: the
buffer/counter reset happens strictly before the serial emission. -/
def resetBeforeEmit (evs : List Event) : Prop :=
  evs.findIdx Event.isReset < evs.findIdx Event.isSerialPrint

end Gpsc

namespace Gpsc

set_option maxRecDepth 4000 in
theorem sketchByteChars_eq_spec :
    ∀ d, d < 256 → sketchByteChars d = specByteChars d := by decide

set_option maxRecDepth 4000 in
theorem sprintfByteChars_eq_spec :
    ∀ d, d < 256 → sprintfByteChars d = specByteChars d := by decide

theorem flatten_map_spec_length (l : List Nat) :
    ((l.map specByteChars).flatten).length = 2 * l.length := by
  induction l with
  | nil => simp
  | cons a t ih =>
      simp only [List.map_cons, List.flatten_cons, List.length_append,
        List.length_cons, ih, specByteChars, List.length_nil]
      omega

/-- Claim C1: from an idle corrector, the pair (0,0) and the pair (1,1)
produce no output, (0,1) outputs 1, (1,0) outputs 0; when the bits
differ, the emitted bit is the second of the pair. -/
theorem vonNeumann_pair_values :
    ∀ (l b1 b2 : Bool),
      (vonNeumannCorrector b1 ⟨l, false⟩).1 = none ∧
      (vonNeumannCorrector b2 (vonNeumannCorrector b1 ⟨l, false⟩).2).1 =
        (if b1 == b2 then none else some b2) := by decide

/-- Claim C4: each corrector call emits at most one bit, never emits
when no bit is pending, flips the single pending slot, and whenever a
bit is left pending it is exactly the bit just consumed (the first of a
new pair), with no output on that call. -/
theorem vonNeumann_state_machine :
    ∀ (b l h : Bool),
      vonNeumannCorrector b ⟨l, h⟩ =
        ((if h then (if l != b then some b else none) else none),
         ⟨(if h then l else b), !h⟩) ∧
      (vonNeumannCorrector b ⟨l, h⟩).1.toList.length ≤ 1 := by decide

/-- Claim C5: below 256 collected bits, `hashAndOutput` returns the
state unchanged and performs no observable action at all. -/
theorem hashAndOutput_below_capacity_noop :
    ∀ (f : List Nat → List Nat) (st : CoreState),
      st.collectedBits < 256 →
      hashAndOutput f st = (st, []) := by
  intro f st h
  simp [hashAndOutput, BUFFER_BITS, h]

theorem hashAndOutput_below_capacity_noop_witness :
    (10 : Nat) < 256 ∧
    hashAndOutput (fun _ => List.replicate 32 0) ⟨List.replicate 32 0, 10⟩ =
      (⟨List.replicate 32 0, 10⟩, []) :=
  ⟨by decide,
   hashAndOutput_below_capacity_noop (fun _ => List.replicate 32 0)
     ⟨List.replicate 32 0, 10⟩ (by decide)⟩

/-- Claim C6: whenever `hashAndOutput` emits (buffer at or above 256
bits), the post-state has `collectedBits = 0` and all 32 buffer bytes
equal to 0, whatever the prior buffer content was. -/
theorem hashAndOutput_clears_state :
    ∀ (f : List Nat → List Nat) (st : CoreState),
      256 ≤ st.collectedBits →
      (hashAndOutput f st).2 ≠ [] ∧
      (hashAndOutput f st).1.collectedBits = 0 ∧
      (hashAndOutput f st).1.entropyBuffer = List.replicate 32 0 := by
  intro f st h
  have hn : ¬ st.collectedBits < BUFFER_BITS := by
    simp only [BUFFER_BITS]; omega
  simp [hashAndOutput, hn]

theorem hashAndOutput_clears_state_witness :
    (256 : Nat) ≤ 256 ∧
    ((hashAndOutput (fun _ => List.replicate 32 7)
        ⟨List.replicate 32 255, 256⟩).2 ≠ [] ∧
     (hashAndOutput (fun _ => List.replicate 32 7)
        ⟨List.replicate 32 255, 256⟩).1.collectedBits = 0 ∧
     (hashAndOutput (fun _ => List.replicate 32 7)
        ⟨List.replicate 32 255, 256⟩).1.entropyBuffer =
       List.replicate 32 0) :=
  ⟨by decide,
   hashAndOutput_clears_state (fun _ => List.replicate 32 7)
     ⟨List.replicate 32 255, 256⟩ (by decide)⟩

/-- Claim C2, counterexample: at a full buffer the reset does NOT
precede the serial emission — in `hashAndOutput` the hex line is
printed first and `collectedBits`/`entropyBuffer` are cleared only
afterwards. -/
theorem hashAndOutput_reset_not_before_emit :
    ¬ resetBeforeEmit
        (hashAndOutput (fun _ => List.replicate 32 0)
          ⟨List.replicate 32 0, 256⟩).2 := by
  simp only [resetBeforeEmit]
  decide

/-- Claim C2, amended: at a full buffer the digest is computed from the
pre-reset buffer and strictly before the serial emission; the reset
happens after the emission but still inside the same `hashAndOutput`
call, so the state returned to the loop is already cleared. -/
theorem hashAndOutput_event_order :
    ∀ (f : List Nat → List Nat) (st : CoreState),
      256 ≤ st.collectedBits →
      (hashAndOutput f st).2 =
        [Event.digestComputed (f st.entropyBuffer),
         Event.serialPrint (sketchHexLine (f st.entropyBuffer)),
         Event.bufferReset] ∧
      (hashAndOutput f st).1 = ⟨List.replicate 32 0, 0⟩ := by
  intro f st h
  have hn : ¬ st.collectedBits < BUFFER_BITS := by
    simp only [BUFFER_BITS]; omega
  simp [hashAndOutput, hn]

theorem hashAndOutput_event_order_witness :
    (256 : Nat) ≤ 256 ∧
    ((hashAndOutput (fun _ => List.replicate 32 0)
        ⟨List.replicate 32 0, 256⟩).2 =
      [Event.digestComputed (List.replicate 32 0),
       Event.serialPrint (sketchHexLine (List.replicate 32 0)),
       Event.bufferReset] ∧
     (hashAndOutput (fun _ => List.replicate 32 0)
        ⟨List.replicate 32 0, 256⟩).1 = ⟨List.replicate 32 0, 0⟩) :=
  ⟨by decide,
   hashAndOutput_event_order (fun _ => List.replicate 32 0)
     ⟨List.replicate 32 0, 256⟩ (by decide)⟩

/-- Claim C8: for a 32-byte digest the emitted line is the 64-character
uppercase-hex encoding (two digits per byte, leading zero included,
most-significant nibble first, digest byte order) plus the line break,
and the all-zero digest encodes to 64 '0' characters plus the line
break. -/
theorem hex_output_line_format :
    ∀ digest : List Nat, digest.length = 32 → (∀ b ∈ digest, b < 256) →
      sketchHexLine digest =
        String.mk ((digest.map specByteChars).flatten ++ ['\n']) ∧
      ((digest.map specByteChars).flatten).length = 64 ∧
      sketchHexLine (List.replicate 32 0) =
        String.mk (List.replicate 64 '0' ++ ['\n']) := by
  intro digest hlen hb
  refine ⟨?_, ?_, by decide⟩
  · have hmap : digest.map sketchByteChars = digest.map specByteChars :=
      List.map_congr_left (fun a ha => sketchByteChars_eq_spec a (hb a ha))
    simp only [sketchHexLine, lineBreak, hmap]
  · rw [flatten_map_spec_length, hlen]

theorem hex_output_line_format_witness :
    (List.replicate 32 (0 : Nat)).length = 32 ∧
    sketchHexLine (List.replicate 32 0) =
      String.mk (List.replicate 64 '0' ++ ['\n']) :=
  ⟨by decide,
   (hex_output_line_format (List.replicate 32 0) (by decide)
     (by decide)).2.2⟩

/-- Claim C10: for every 32-byte digest the per-byte
`Serial.print(..., HEX)` encoding with a manual leading zero
(`sketch_gpsc.ino`) and the `sprintf("%02X")` whole-line encoding
(unnamed variant) produce byte-for-byte identical output lines. -/
theorem hex_encodings_agree :
    ∀ digest : List Nat, (∀ b ∈ digest, b < 256) →
      sketchHexLine digest = variantHexLine digest := by
  intro d hb
  have hmap : d.map sketchByteChars = d.map sprintfByteChars :=
    List.map_congr_left (fun a ha => by
      rw [sketchByteChars_eq_spec a (hb a ha),
        ← sprintfByteChars_eq_spec a (hb a ha)])
  simp only [sketchHexLine, variantHexLine, hmap]

theorem getD_replicate_zero :
    ∀ (k j : Nat), (List.replicate k (0 : Nat)).getD j 0 = 0 := by
  intro k
  induction k with
  | zero => intro j; rfl
  | succ m ih =>
      intro j
      cases j with
      | zero => rfl
      | succ j' => simp only [List.replicate, List.getD_cons_succ, ih j']

theorem getD_set_self (l : List Nat) (i v d : Nat) (h : i < l.length) :
    (l.set i v).getD i d = v := by
  simp [List.getD, List.getElem?_set_self, h]

theorem getD_set_ne (l : List Nat) (i j v d : Nat) (h : i ≠ j) :
    (l.set i v).getD j d = l.getD j d := by
  simp [List.getD, List.getElem?_set_ne h]

theorem pack_snd (b : Bool) (buf : List Nat) (n : Nat) :
    (packBitIntoBuffer b buf n).2 = n + 1 := rfl

theorem pack_length (b : Bool) (buf : List Nat) (n : Nat) :
    (packBitIntoBuffer b buf n).1.length = buf.length := by
  cases b <;> simp [packBitIntoBuffer, List.length_set]

theorem pack_byteBound (b : Bool) (buf : List Nat) (n : Nat)
    (H : ∀ j, buf.getD j 0 < 256) :
    ∀ j, (packBitIntoBuffer b buf n).1.getD j 0 < 256 := by
  intro j
  cases b with
  | false => exact H j
  | true =>
      show (buf.set (n / 8)
        ((buf.getD (n / 8) 0 ||| 1 <<< (n % 8)) % 256)).getD j 0 < 256
      by_cases hij : n / 8 = j
      · subst hij
        by_cases hlenj : n / 8 < buf.length
        · rw [getD_set_self _ _ _ _ hlenj]
          exact Nat.mod_lt _ (by decide)
        · rw [List.set_eq_of_length_le (Nat.le_of_not_lt hlenj)]
          exact H _
      · rw [getD_set_ne _ _ _ _ _ hij]
        exact H j

theorem bufBit_pack (b : Bool) (buf : List Nat) (n i : Nat)
    (hlen : buf.length = 32) (H : ∀ j, buf.getD j 0 < 256)
    (hn : n < 256) :
    bufBit (packBitIntoBuffer b buf n).1 i =
      (if i = n then (bufBit buf n || b) else bufBit buf i) := by
  cases b with
  | false =>
      by_cases hin : i = n
      · subst hin; simp [packBitIntoBuffer, bufBit]
      · simp [packBitIntoBuffer, hin]
  | true =>
      have hset : (packBitIntoBuffer true buf n).1 =
          buf.set (n / 8) ((buf.getD (n / 8) 0 ||| 1 <<< (n % 8)) % 256) := rfl
      have hdiv : n / 8 < buf.length := by omega
      have hmod : (buf.getD (n / 8) 0 ||| 1 <<< (n % 8)) % 256 =
          buf.getD (n / 8) 0 ||| 2 ^ (n % 8) := by
        rw [Nat.one_shiftLeft]
        apply Nat.mod_eq_of_lt
        have h1 : buf.getD (n / 8) 0 < 2 ^ 8 := by have := H (n / 8); omega
        have h2 : 2 ^ (n % 8) < 2 ^ 8 :=
          Nat.pow_lt_pow_right (by decide) (by omega)
        have h3 := Nat.or_lt_two_pow h1 h2
        simpa using h3
      unfold bufBit
      rw [hset, hmod]
      by_cases hbyte : n / 8 = i / 8
      · rw [← hbyte, getD_set_self _ _ _ _ hdiv]
        rw [Nat.testBit_lor]
        by_cases hin : i = n
        · subst hin
          simp [Nat.testBit_two_pow_self]
        · have hmodne : n % 8 ≠ i % 8 := by omega
          rw [Nat.testBit_two_pow_of_ne hmodne]
          simp [hin, hbyte]
      · rw [getD_set_ne _ _ _ _ _ hbyte]
        have hin : i ≠ n := fun he => hbyte (by rw [he])
        simp [hin]

theorem pushAll_cons (b : Bool) (bs : List Bool) (buf : List Nat) (n : Nat) :
    pushAll (b :: bs) buf n =
      pushAll bs (packBitIntoBuffer b buf n).1
        (packBitIntoBuffer b buf n).2 := rfl

theorem pushAll_chars :
    ∀ (bits : List Bool) (buf : List Nat) (n : Nat),
      buf.length = 32 → (∀ j, buf.getD j 0 < 256) → n + bits.length ≤ 256 →
      (pushAll bits buf n).2 = n + bits.length ∧
      (pushAll bits buf n).1.length = 32 ∧
      (∀ j, (pushAll bits buf n).1.getD j 0 < 256) ∧
      (∀ i, i < 256 →
        bufBit (pushAll bits buf n).1 i =
          (if n ≤ i ∧ i < n + bits.length
           then (bufBit buf i || bits.getD (i - n) false)
           else bufBit buf i)) := by
  intro bits
  induction bits with
  | nil =>
      intro buf n hlen H hle
      refine ⟨rfl, hlen, H, ?_⟩
      intro i hi
      have hno : ¬ (n ≤ i ∧ i < n + ([] : List Bool).length) := by
        simp only [List.length_nil]; omega
      simp [pushAll, hno]
  | cons b bs ih =>
      intro buf n hlen H hle
      have hlc : (b :: bs).length = bs.length + 1 := rfl
      have hn : n < 256 := by omega
      have hlen1 : (packBitIntoBuffer b buf n).1.length = 32 := by
        rw [pack_length]; exact hlen
      have H1 : ∀ j, (packBitIntoBuffer b buf n).1.getD j 0 < 256 :=
        pack_byteBound b buf n H
      have hle1 : (n + 1) + bs.length ≤ 256 := by omega
      obtain ⟨ih1, ih2, ih3, ih4⟩ :=
        ih (packBitIntoBuffer b buf n).1 (n + 1) hlen1 H1 hle1
      rw [pushAll_cons, pack_snd]
      refine ⟨by rw [ih1, hlc]; omega, ih2, ih3, ?_⟩
      intro i hi
      rw [ih4 i hi, hlc]
      by_cases h1 : n + 1 ≤ i ∧ i < (n + 1) + bs.length
      · rw [if_pos h1]
        rw [bufBit_pack b buf n i hlen H hn]
        have hin : i ≠ n := by omega
        rw [if_neg hin, if_pos (⟨by omega, by omega⟩ : n ≤ i ∧ i < n + (bs.length + 1))]
        have hgd : (b :: bs).getD (i - n) false = bs.getD (i - (n + 1)) false := by
          have h2 : i - n = (i - (n + 1)) + 1 := by omega
          rw [h2]; simp
        rw [hgd]
      · rw [if_neg h1]
        rw [bufBit_pack b buf n i hlen H hn]
        by_cases hin : i = n
        · subst hin
          rw [if_pos rfl,
            if_pos (⟨Nat.le_refl i, by omega⟩ : i ≤ i ∧ i < i + (bs.length + 1))]
          simp
        · rw [if_neg hin]
          have hno : ¬ (n ≤ i ∧ i < n + (bs.length + 1)) := by omega
          rw [if_neg hno]

/-- Claim C3: pushing any 256 accepted bits into the all-zero buffer
with counter 0 packs bit `i` into byte `i / 8` at bit position `i % 8`,
least-significant-bit first: bit `i` of the result is set iff the
`i`-th accepted bit was true. -/
theorem accumulator_bit_layout :
    ∀ bits : List Bool, bits.length = 256 →
      (pushAll bits (List.replicate 32 0) 0).2 = 256 ∧
      ∀ i, i < 256 →
        bufBit (pushAll bits (List.replicate 32 0) 0).1 i =
          bits.getD i false := by
  intro bits hlen
  obtain ⟨h1, _, _, h4⟩ := pushAll_chars bits (List.replicate 32 0) 0
    (by simp) (fun j => by rw [getD_replicate_zero]; decide) (by omega)
  refine ⟨by rw [h1, hlen], ?_⟩
  intro i hi
  have hz : bufBit (List.replicate 32 0) i = false := by
    unfold bufBit
    rw [getD_replicate_zero]
    exact Nat.zero_testBit _
  rw [h4 i hi, if_pos ⟨Nat.zero_le i, by omega⟩, hz]
  simp

set_option maxRecDepth 10000 in
theorem accumulator_bit_layout_witness :
    (List.replicate 256 true).length = 256 ∧
    ((pushAll (List.replicate 256 true) (List.replicate 32 0) 0).2 = 256 ∧
     ∀ i, i < 256 →
       bufBit (pushAll (List.replicate 256 true) (List.replicate 32 0) 0).1 i =
         (List.replicate 256 true).getD i false) :=
  ⟨by decide, accumulator_bit_layout (List.replicate 256 true) (by decide)⟩

theorem hashAndOutput_fill_lt (f : List Nat → List Nat) (st : CoreState) :
    (hashAndOutput f st).1.collectedBits < 256 := by
  by_cases h : st.collectedBits < BUFFER_BITS
  · simp only [hashAndOutput, if_pos h]
    exact h
  · simp [hashAndOutput, h]

theorem loopStep_fill_lt (f : List Nat → List Nat) (s : LoopState) (b : Bool)
    (h : s.core.collectedBits < 256) :
    (loopStep f s b).core.collectedBits < 256 := by
  rcases hvn : (vonNeumannCorrector b s.vn).1 with _ | cb
  · simpa [loopStep, hvn] using h
  · simp only [loopStep, hvn]
    exact hashAndOutput_fill_lt f _

theorem runLoop_fill_lt (f : List Nat → List Nat) :
    ∀ (bits : List Bool) (s : LoopState),
      s.core.collectedBits < 256 →
      (runLoop f bits s).core.collectedBits < 256 := by
  intro bits
  induction bits with
  | nil => intro s h; simpa [runLoop] using h
  | cons b t ih =>
      intro s h
      rw [runLoop, List.foldl_cons]
      exact ih _ (loopStep_fill_lt f s b h)

/-- Claim C7: in every state the driver loop can reach from startup,
the fill counter stays within bounds: it is at most 256, it is never
left equal to the 256-bit capacity when a new push could occur, and the
byte index of the next buffer write is inside the 32-byte array. -/
theorem loop_fill_counter_bounded :
    ∀ (f : List Nat → List Nat) (bits : List Bool),
      (runLoop f bits initLoopState).core.collectedBits ≤ 256 ∧
      (runLoop f bits initLoopState).core.collectedBits ≠ 256 ∧
      (runLoop f bits initLoopState).core.collectedBits / 8 < 32 := by
  intro f bits
  have h := runLoop_fill_lt f bits initLoopState (by decide)
  exact ⟨Nat.le_of_lt h, Nat.ne_of_lt h, by omega⟩

theorem pack_false_fst (buf : List Nat) (n : Nat) :
    (packBitIntoBuffer false buf n).1 = buf := rfl

theorem runLoop_append (f : List Nat → List Nat) (a b : List Bool)
    (s : LoopState) :
    runLoop f (a ++ b) s = runLoop f b (runLoop f a s) := by
  simp [runLoop, List.foldl_append]

theorem range_map_altPattern :
    ∀ k, (List.range (4 * k)).map (fun i => i % 4 == 1 || i % 4 == 2) =
      List.flatten (List.replicate k altBlock) := by
  intro k
  induction k with
  | zero => rfl
  | succ m ih =>
      have h4 : 4 * (m + 1) = 4 * m + 4 := by ring
      rw [h4, List.range_add, List.map_append,
        List.replicate_succ', List.flatten_append, ← ih]
      congr 1
      have e0 : (4 * m + 0) % 4 = 0 := by omega
      have e1 : (4 * m + 1) % 4 = 1 := by omega
      have e2 : (4 * m + 2) % 4 = 2 := by omega
      have e3 : (4 * m + 3) % 4 = 3 := by omega
      simp [List.range_succ, altBlock, List.flatten, e0, e1, e2, e3]

theorem altSeq_eq_blocks :
    altSeq = List.flatten (List.replicate 128 altBlock) := by
  have h := range_map_altPattern 128
  have h512 : 4 * 128 = 512 := by norm_num
  rw [h512] at h
  exact h

theorem vnOutputs_append (a b : List Bool) (s : VnState) :
    vnOutputs (a ++ b) s =
      ((vnOutputs a s).1 ++ (vnOutputs b (vnOutputs a s).2).1,
       (vnOutputs b (vnOutputs a s).2).2) := by
  induction a generalizing s with
  | nil => simp [vnOutputs]
  | cons x xs ih =>
      simp only [List.cons_append, vnOutputs]
      rcases hr : (vonNeumannCorrector x s).1 with _ | ob <;>
        simp [hr, ih]

theorem vnOutputs_altBlock (l : Bool) :
    vnOutputs altBlock ⟨l, false⟩ = ([true, false], ⟨true, false⟩) := by
  cases l <;> rfl

theorem vnOutputs_blocks :
    ∀ (k : Nat) (l : Bool),
      (vnOutputs (List.flatten (List.replicate k altBlock)) ⟨l, false⟩).1.length =
        2 * k ∧
      (vnOutputs (List.flatten (List.replicate k altBlock)) ⟨l, false⟩).2 =
        (if k = 0 then ⟨l, false⟩ else ⟨true, false⟩) := by
  intro k
  induction k with
  | zero => intro l; simp [vnOutputs]
  | succ m ih =>
      intro l
      rw [List.replicate_succ altBlock m, List.flatten_cons,
        vnOutputs_append, vnOutputs_altBlock]
      obtain ⟨ih1, ih2⟩ := ih true
      constructor
      · simp only [List.length_append, ih1, List.length_cons,
          List.length_nil]
        omega
      · rw [ih2]
        rcases Nat.eq_zero_or_pos m with hm | hm
        · simp [hm]
        · simp [Nat.pos_iff_ne_zero.mp hm]

theorem runLoop_altBlock_noemit (f : List Nat → List Nat)
    (buf : List Nat) (cb : Nat) (l : Bool) (ev : List Event)
    (hcb : cb + 2 < 256) :
    runLoop f altBlock ⟨⟨buf, cb⟩, ⟨l, false⟩, ev⟩ =
      ⟨⟨(packBitIntoBuffer true buf cb).1, cb + 2⟩, ⟨true, false⟩, ev⟩ := by
  have h1 : cb + 1 < BUFFER_BITS := by simp only [BUFFER_BITS]; omega
  have h2 : cb + 2 < BUFFER_BITS := by simp only [BUFFER_BITS]; omega
  simp [runLoop, altBlock, loopStep, vonNeumannCorrector, hashAndOutput,
    pack_snd, pack_false_fst, h1, h2]

theorem runLoop_altBlock_emit (f : List Nat → List Nat)
    (buf : List Nat) (l : Bool) (ev : List Event) :
    runLoop f altBlock ⟨⟨buf, 254⟩, ⟨l, false⟩, ev⟩ =
      ⟨⟨List.replicate 32 0, 0⟩, ⟨true, false⟩,
       ev ++ [Event.digestComputed (f (packBitIntoBuffer true buf 254).1),
              Event.serialPrint
                (sketchHexLine (f (packBitIntoBuffer true buf 254).1)),
              Event.bufferReset]⟩ := by
  have h1 : (254 : Nat) + 1 < BUFFER_BITS := by decide
  have h2 : ¬ ((254 : Nat) + 2 < BUFFER_BITS) := by decide
  simp [runLoop, altBlock, loopStep, vonNeumannCorrector, hashAndOutput,
    pack_snd, pack_false_fst, h1, h2]

theorem runLoop_blocks (f : List Nat → List Nat) :
    ∀ (k : Nat) (buf : List Nat) (cb : Nat) (l : Bool) (ev : List Event),
      cb + 2 * k ≤ 254 →
      (runLoop f (List.flatten (List.replicate k altBlock))
          ⟨⟨buf, cb⟩, ⟨l, false⟩, ev⟩).core.collectedBits = cb + 2 * k ∧
      (runLoop f (List.flatten (List.replicate k altBlock))
          ⟨⟨buf, cb⟩, ⟨l, false⟩, ev⟩).vn.hasLastBit = false ∧
      (runLoop f (List.flatten (List.replicate k altBlock))
          ⟨⟨buf, cb⟩, ⟨l, false⟩, ev⟩).events = ev := by
  intro k
  induction k with
  | zero => intro buf cb l ev _; simp [runLoop]
  | succ m ih =>
      intro buf cb l ev hle
      rw [List.replicate_succ altBlock m, List.flatten_cons, runLoop_append,
        runLoop_altBlock_noemit f buf cb l ev (by omega)]
      obtain ⟨ih1, ih2, ih3⟩ :=
        ih (packBitIntoBuffer true buf cb).1 (cb + 2) true ev (by omega)
      refine ⟨?_, ih2, ih3⟩
      rw [ih1]
      ring

/-- Claim C9: feeding the driver the strictly alternating 512-bit raw
sequence `0,1,1,0,0,1,1,0,...` from the initial state yields exactly
256 accepted debiased bits and exactly one serial emission, leaving the
fill counter at 0. -/
theorem alternating_512_one_emission :
    ∀ (f : List Nat → List Nat),
      ((runLoop f altSeq initLoopState).events.filter
        Event.isSerialPrint).length = 1 ∧
      (runLoop f altSeq initLoopState).core.collectedBits = 0 ∧
      (vnOutputs altSeq ⟨false, false⟩).1.length = 256 := by
  intro f
  have hsplit : altSeq =
      List.flatten (List.replicate 127 altBlock) ++ altBlock := by
    rw [altSeq_eq_blocks,
      show (128 : Nat) = 127 + 1 from rfl,
      List.replicate_succ', List.flatten_append]
    rw [show List.flatten [altBlock] = altBlock ++ [] from rfl,
      List.append_nil]
  have hvn : (vnOutputs altSeq ⟨false, false⟩).1.length = 256 := by
    rw [altSeq_eq_blocks]
    exact (vnOutputs_blocks 128 false).1
  obtain ⟨h1, h2, h3⟩ :=
    runLoop_blocks f 127 (List.replicate 32 0) 0 false [] (by omega)
  have hinit : initLoopState =
      ⟨⟨List.replicate 32 0, 0⟩, ⟨false, false⟩, []⟩ := rfl
  rw [← hinit] at h1 h2 h3
  rcases hdef : runLoop f (List.flatten (List.replicate 127 altBlock))
      initLoopState with ⟨⟨buf, cb⟩, ⟨l, hl⟩, ev⟩
  rw [hdef] at h1 h2 h3
  simp only at h1 h2 h3
  subst h1
  subst h2
  subst h3
  have hfin : runLoop f altSeq initLoopState =
      runLoop f altBlock ⟨⟨buf, 0 + 2 * 127⟩, ⟨l, false⟩, []⟩ := by
    rw [hsplit, runLoop_append, hdef]
  rw [hfin, show (0 + 2 * 127 : Nat) = 254 from rfl,
    runLoop_altBlock_emit f buf l []]
  refine ⟨?_, rfl, hvn⟩
  simp [Event.isSerialPrint]

theorem hex_encodings_agree_witness :
    (∀ b ∈ (List.range 32).map (fun i => 8 * i + 7), b < 256) ∧
    sketchHexLine ((List.range 32).map (fun i => 8 * i + 7)) =
      variantHexLine ((List.range 32).map (fun i => 8 * i + 7)) :=
  ⟨by decide,
   hex_encodings_agree ((List.range 32).map (fun i => 8 * i + 7))
     (by decide)⟩

end Gpsc
